import Mathlib

/-!
Verification of the image <-> matrix marshaling logic of
src/mlpack/core/data/load_image.hpp (class mlpack::data::Image).

The repository ships the class declaration in load_image.hpp; the member
definitions live in load_image_impl.hpp, which is not part of the sources
available here.  Consequently:

* The public surface of the class (its overloads, parameter lists, default
  arguments and return types) is embedded verbatim from the header as the
  table imageMethods below.
* The behaviour of Load / Save / LoadDir is modelled from the spec
  (sections 4.1 to 4.4): the external pixel codec is idealized as a map from
  paths to decoded images, encode stores the pixel bytes exactly (faithful
  for the lossless formats the round-trip property is stated for), and the
  filesystem directory listing is a map from directory paths to entry lists.

Pixel samples are modelled as Nat (unsigned 8-bit samples; their numeric
range plays no role in the marshaling logic).
-/

namespace LoadImage

/-- A decoded raw image as produced by the codec adapter: width, height,
channel count and the row-major interleaved pixel buffer. -/
structure DecodedImage where
  width : Nat
  height : Nat
  channels : Nat
  pixels : List Nat
deriving DecidableEq

/-- The Dimension State of the loader, mirroring the private members
maxWidth, maxHeight, channels of class Image (default-constructed to
(0,0,0) per spec section 4.4). -/
structure Image where
  maxWidth : Nat
  maxHeight : Nat
  channels : Nat
deriving DecidableEq

/-- Error kinds of spec section 7 that the Load family can produce. -/
inductive LoadError where
  | decodeError (path : String)
  | dimensionMismatch (index : Nat)
  | emptyList
  | directoryError (path : String)
deriving DecidableEq

/-- The codec adapter plus file store, idealized: a map from file paths to
the image the codec decodes the file to (none = unreadable or corrupt). -/
def FileSys : Type := String → Option DecodedImage

/-- Writing an encoded file: the stored file decodes back to exactly the
pixel data that was encoded (lossless codec adapter model). -/
def fsUpdate (fs : FileSys) (path : String) (img : DecodedImage) : FileSys :=
  fun p => if p = path then some img else fs p

/-- Split a flat pixel buffer into h rows of rowLen samples each
(rowLen = width * channels for a row-major interleaved buffer). -/
def splitRows (rowLen : Nat) : Nat → List Nat → List (List Nat)
  | 0, _ => []
  | h + 1, buf => buf.take rowLen :: splitRows rowLen h (buf.drop rowLen)

/-- Vertical flip of a flat pixel buffer: reverse the order of the h pixel
rows (each row = rowLen contiguous samples), keeping each row intact.
Modelled from the spec: load_image_impl.hpp is not in the sources; spec
section 4.1 fixes the operation as reversing the order of pixel rows in
place, channel order within a row untouched. -/
def flipVertical (rowLen h : Nat) (buf : List Nat) : List Nat :=
  ((splitRows rowLen h buf).reverse).flatten

theorem splitRows_length (rowLen : Nat) :
    ∀ (h : Nat) (buf : List Nat), (splitRows rowLen h buf).length = h := by
  intro h
  induction h with
  | zero => intro buf; rfl
  | succ n ih => intro buf; simp [splitRows, ih]

theorem length_of_mem_splitRows (rowLen : Nat) :
    ∀ (h : Nat) (buf : List Nat), buf.length = h * rowLen →
      ∀ r ∈ splitRows rowLen h buf, r.length = rowLen := by
  intro h
  induction h with
  | zero => intro buf _ r hr; simp [splitRows] at hr
  | succ n ih =>
      intro buf hlen r hr
      have hle : rowLen ≤ buf.length := by
        rw [hlen, Nat.succ_mul]; exact Nat.le_add_left _ _
      simp only [splitRows, List.mem_cons] at hr
      rcases hr with h1 | h2
      · rw [h1, List.length_take]; omega
      · exact ih (buf.drop rowLen) (by rw [List.length_drop, hlen, Nat.succ_mul]; omega) r h2

theorem flatten_splitRows (rowLen : Nat) :
    ∀ (h : Nat) (buf : List Nat), buf.length = h * rowLen →
      (splitRows rowLen h buf).flatten = buf := by
  intro h
  induction h with
  | zero =>
      intro buf hlen
      have : buf = [] := List.eq_nil_of_length_eq_zero (by simpa using hlen)
      simp [splitRows, this]
  | succ n ih =>
      intro buf hlen
      have hdrop : (buf.drop rowLen).length = n * rowLen := by
        rw [List.length_drop, hlen, Nat.succ_mul]; omega
      simp only [splitRows, List.flatten_cons, ih (buf.drop rowLen) hdrop]
      exact List.take_append_drop rowLen buf

theorem splitRows_flatten (rowLen : Nat) :
    ∀ (rows : List (List Nat)), (∀ r ∈ rows, r.length = rowLen) →
      splitRows rowLen rows.length rows.flatten = rows := by
  intro rows
  induction rows with
  | nil => intro _; rfl
  | cons r rest ih =>
      intro hall
      have hr : r.length = rowLen := hall r (List.mem_cons_self r rest)
      have hrest : ∀ q ∈ rest, q.length = rowLen :=
        fun q hq => hall q (List.mem_cons_of_mem r hq)
      simp only [List.length_cons, List.flatten_cons, splitRows]
      rw [← hr, List.take_left, List.drop_left, hr, ih hrest]

theorem splitRows_flipVertical (rowLen h : Nat) (buf : List Nat)
    (hlen : buf.length = h * rowLen) :
    splitRows rowLen h (flipVertical rowLen h buf) =
      (splitRows rowLen h buf).reverse := by
  have hlenrev : (splitRows rowLen h buf).reverse.length = h := by
    rw [List.length_reverse, splitRows_length]
  have hall : ∀ r ∈ (splitRows rowLen h buf).reverse, r.length = rowLen := by
    intro r hr
    exact length_of_mem_splitRows rowLen h buf hlen r (List.mem_reverse.mp hr)
  have := splitRows_flatten rowLen (splitRows rowLen h buf).reverse hall
  rw [hlenrev] at this
  simpa [flipVertical] using this

theorem flipVertical_involution (rowLen h : Nat) (buf : List Nat)
    (hlen : buf.length = h * rowLen) :
    flipVertical rowLen h (flipVertical rowLen h buf) = buf := by
  show ((splitRows rowLen h (flipVertical rowLen h buf)).reverse).flatten = buf
  rw [splitRows_flipVertical rowLen h buf hlen, List.reverse_reverse]
  exact flatten_splitRows rowLen h buf hlen

theorem flipVertical_length (rowLen h : Nat) (buf : List Nat)
    (hlen : buf.length = h * rowLen) :
    (flipVertical rowLen h buf).length = buf.length := by
  have h1 : (flipVertical rowLen h buf).length =
      ((splitRows rowLen h buf).reverse.map List.length).sum := by
    simp [flipVertical, List.length_flatten]
  rw [h1, List.map_reverse, List.sum_reverse, ← List.length_flatten,
    flatten_splitRows rowLen h buf hlen]

/-- Characters of a path after its last dot, in order (none when the path
has no dot); the argument is the reversed character list of the path. -/
def extAfterDot : List Char → Option (List Char)
  | [] => none
  | ch :: rest =>
      if ch = '.' then some []
      else Option.map (fun l => l ++ [ch]) (extAfterDot rest)

/-- Lower-cased file extension of a path (empty when there is no dot).
Modelled from the spec: the extension selects the codec, case-insensitively
(spec section 4.1). -/
def extOf (path : String) : List Char :=
  match extAfterDot path.data.reverse with
  | none => []
  | some l => l.map Char.toLower

/-- Extensions the codec adapter recognizes (spec section 6). -/
def saveExts : List (List Char) :=
  [['j', 'p', 'g'], ['j', 'p', 'e', 'g'], ['p', 'n', 'g'], ['b', 'm', 'p'],
   ['t', 'g', 'a'], ['p', 's', 'd'], ['g', 'i', 'f'], ['h', 'd', 'r'],
   ['p', 'i', 'c'], ['p', 'p', 'm'], ['p', 'g', 'm']]

/-- Lossless formats among the supported ones, for the round-trip
property (spec P1 names PNG as the canonical example). -/
def losslessExts : List (List Char) :=
  [['p', 'n', 'g'], ['b', 'm', 'p'], ['t', 'g', 'a']]

/-- The conditions under which a single-image Save succeeds, from spec
section 4.1: recognized extension, channel count in 1..4, and the column
holding at least width * height * channels samples (excess ignored). -/
def saveOk (path : String) (col : List Nat) (w h c : Nat) : Bool :=
  decide (extOf path ∈ saveExts) && decide (1 ≤ c) && decide (c ≤ 4) &&
    decide (w * h * c ≤ col.length)

/-- The pixel bytes handed to the encoder: the first w*h*c samples of the
column, rows reversed when flipVertical is set (spec section 4.1). -/
def encodePixels (w h c : Nat) (flip : Bool) (col : List Nat) : List Nat :=
  if flip then flipVertical (w * c) h (col.take (w * h * c))
  else col.take (w * h * c)

/-- Modelled from the spec: single-image Save of load_image_impl.hpp (not in
the sources).  Validates extension / channels / column length, then writes a
file that decodes back to exactly the encoded pixel data (the external codec
is idealized as faithful, which is what spec P1 assumes for lossless
formats); quality only tunes jpg compression in the adapter and does not
affect the marshaling logic modelled here. -/
def Image.Save (fs : FileSys) (path : String) (col : List Nat)
    (w h c : Nat) (flip : Bool) (_quality : Nat) : Bool × FileSys :=
  if saveOk path col w h c then
    (true, fsUpdate fs path (DecodedImage.mk w h c (encodePixels w h c flip col)))
  else (false, fs)

/-- Modelled from the spec: the single-image Load core of
load_image_impl.hpp (not in the sources).  Decodes the path, treats a zero
dimension as failure (spec I2), flips rows when requested, and returns the
pixel column together with the new Dimension State. -/
def loadOne (fs : FileSys) (path : String) (flip : Bool) :
    Except LoadError (Image × List Nat) :=
  match fs path with
  | none => Except.error (LoadError.decodeError path)
  | some img =>
      if 0 < img.width ∧ 0 < img.height ∧ 0 < img.channels then
        Except.ok (Image.mk img.width img.height img.channels,
          if flip then flipVertical (img.width * img.channels) img.height img.pixels
          else img.pixels)
      else Except.error (LoadError.decodeError path)

/-- Modelled from the spec: public single-image Load.  Returns the success
flag, the Dimension State after the call (unchanged on failure, per the
corrupt-file scenario of spec section 8) and the loaded pixel column. -/
def Image.Load (st : Image) (fs : FileSys) (path : String) (flip : Bool) :
    Bool × Image × List Nat :=
  match loadOne fs path flip with
  | Except.error _ => (false, st, [])
  | Except.ok (st2, col) => (true, st2, col)

/-- Modelled from the spec: the batch loop of load_image_impl.hpp (not in
the sources).  Decodes each remaining file, verifies its dimensions equal
the reference established by the first file, and fails at the first
mismatch naming the offending index (spec section 4.2, I1). -/
def loadBatchAux (fs : FileSys) (flip : Bool) (w h c : Nat) :
    Nat → List String → Except LoadError (List (List Nat))
  | _, [] => Except.ok []
  | i, f :: rest =>
      match fs f with
      | none => Except.error (LoadError.decodeError f)
      | some img =>
          if img.width = w ∧ img.height = h ∧ img.channels = c then
            match loadBatchAux fs flip w h c (i + 1) rest with
            | Except.error e => Except.error e
            | Except.ok cols =>
                Except.ok
                  ((if flip then flipVertical (w * c) h img.pixels else img.pixels)
                    :: cols)
          else Except.error (LoadError.dimensionMismatch i)

/-- Modelled from the spec: batch Load (spec section 4.2).  The first file
establishes the reference dimensions (rejected when any is zero, spec I2);
the result is the list of pixel columns, one per file in order, together
with the Dimension State holding the reference dimensions. -/
def Image.LoadBatch (fs : FileSys) (files : List String) (flip : Bool) :
    Except LoadError (Image × List (List Nat)) :=
  match files with
  | [] => Except.error LoadError.emptyList
  | f0 :: rest =>
      match fs f0 with
      | none => Except.error (LoadError.decodeError f0)
      | some img0 =>
          if 0 < img0.width ∧ 0 < img0.height ∧ 0 < img0.channels then
            match loadBatchAux fs flip img0.width img0.height img0.channels 1 rest with
            | Except.error e => Except.error e
            | Except.ok cols =>
                Except.ok (Image.mk img0.width img0.height img0.channels,
                  (if flip then
                      flipVertical (img0.width * img0.channels) img0.height img0.pixels
                    else img0.pixels) :: cols)
          else Except.error (LoadError.decodeError f0)

/-- Boolean wrapper for batch Load, as the public surface exposes it: on
failure the Dimension State is unchanged and no matrix columns are
produced (fail-fast, no partial matrix; spec section 7). -/
def Image.loadBatchB (st : Image) (fs : FileSys) (files : List String)
    (flip : Bool) : Bool × Image × List (List Nat) :=
  match Image.LoadBatch fs files flip with
  | Except.error _ => (false, st, [])
  | Except.ok (st2, cols) => (true, st2, cols)

/-- Byte-wise lexicographic comparison of character lists (code-point
order, which coincides with byte order of the UTF-8 encoding). -/
def lexLe : List Char → List Char → Bool
  | [], _ => true
  | _ :: _, [] => false
  | a :: as, b :: bs =>
      if a.toNat < b.toNat then true
      else if a.toNat = b.toNat then lexLe as bs
      else false

/-- Byte-wise lexicographic order on file names (spec section 4.3). -/
def strLe (a b : String) : Prop := lexLe a.data b.data = true

instance : DecidableRel strLe := fun a b => by
  unfold strLe; infer_instance

/-- A directory entry as the filesystem contract reports it: a name and
whether the entry is a regular file (spec section 6). -/
structure DirEntry where
  name : String
  isRegular : Bool
deriving DecidableEq

/-- Modelled from the spec: the enumeration step of LoadDir (spec section
4.3): keep the regular files and sort their names byte-wise
lexicographically. -/
def sortedRegularNames (entries : List DirEntry) : List String :=
  List.insertionSort strLe ((entries.filter (fun e => e.isRegular)).map DirEntry.name)

/-- Modelled from the spec: LoadDir of load_image_impl.hpp (not in the
sources).  Lists the directory, sorts the regular file names, and delegates
to batch Load on the sorted paths (spec section 4.3). -/
def Image.LoadDir (dirs : String → Option (List DirEntry)) (fs : FileSys)
    (dirPath : String) (flip : Bool) :
    Except LoadError (Image × List (List Nat)) :=
  match dirs dirPath with
  | none => Except.error (LoadError.directoryError dirPath)
  | some entries =>
      Image.LoadBatch fs
        ((sortedRegularNames entries).map (fun n => dirPath ++ "/" ++ n)) flip

/-- Modelled from the spec: the batch Save loop (spec section 4.2).  Saves
column after column; at the first failing column it stops, reporting that
index, and the files saved so far stay written (best effort on disk, no
rollback; spec section 7). -/
def saveBatchAux (w h c : Nat) (flip : Bool) (quality : Nat) :
    FileSys → Nat → List (String × List Nat) → Option Nat × FileSys
  | fs, _, [] => (none, fs)
  | fs, i, (p, col) :: rest =>
      match Image.Save fs p col w h c flip quality with
      | (true, fs2) => saveBatchAux w h c flip quality fs2 (i + 1) rest
      | (false, _) => (some i, fs)

/-- Modelled from the spec: batch Save over path / column pairs.  Returns
the first failing index (none on success) and the resulting file store. -/
def Image.SaveBatch (fs : FileSys) (pairs : List (String × List Nat))
    (w h c : Nat) (flip : Bool) (quality : Nat) : Option Nat × FileSys :=
  saveBatchAux w h c flip quality fs 0 pairs

/-- A formal parameter of a declared method: name, type, and default
argument when the header declares one. -/
structure Param where
  pname : String
  ptype : String
  dflt : Option String
deriving DecidableEq

/-- A method of the public surface: name, parameters and return type. -/
structure MethodDecl where
  mname : String
  params : List Param
  ret : String
deriving DecidableEq

/-- Load(fileName, outputMatrix, flipVertical = true), header lines 89-91. -/
def loadSingleDecl : MethodDecl :=
  MethodDecl.mk "Load"
    [Param.mk "fileName" "const std::string&" none,
     Param.mk "outputMatrix" "arma::Mat<unsigned char>&" none,
     Param.mk "flipVertical" "bool" (some "true")]
    "bool"

/-- Load(fileName, outputMatrix, width, height, channels,
flipVertical = true), header lines 104-109. -/
def loadSingleDimsDecl : MethodDecl :=
  MethodDecl.mk "Load"
    [Param.mk "fileName" "const std::string&" none,
     Param.mk "outputMatrix" "arma::Mat<unsigned char>&" none,
     Param.mk "width" "size_t&" none,
     Param.mk "height" "size_t&" none,
     Param.mk "channels" "size_t&" none,
     Param.mk "flipVertical" "bool" (some "true")]
    "bool"

/-- Load(files, outputMatrix, width, height, channels,
flipVertical = true), header lines 122-127. -/
def loadBatchDecl : MethodDecl :=
  MethodDecl.mk "Load"
    [Param.mk "files" "const std::vector<std::string>&" none,
     Param.mk "outputMatrix" "arma::Mat<unsigned char>&" none,
     Param.mk "width" "size_t&" none,
     Param.mk "height" "size_t&" none,
     Param.mk "channels" "size_t&" none,
     Param.mk "flipVertical" "bool" (some "true")]
    "bool"

/-- Save(fileName, inputMatrix, width, height, channels,
flipVertical = true, quality = 90), header lines 141-147. -/
def saveSingleDecl : MethodDecl :=
  MethodDecl.mk "Save"
    [Param.mk "fileName" "const std::string&" none,
     Param.mk "inputMatrix" "arma::Mat<unsigned char>&" none,
     Param.mk "width" "size_t" none,
     Param.mk "height" "size_t" none,
     Param.mk "channels" "size_t" none,
     Param.mk "flipVertical" "bool" (some "true"),
     Param.mk "quality" "size_t" (some "90")]
    "bool"

/-- Save(files, inputMatrix, width, height, channels,
flipVertical = true, quality = 90), header lines 161-167. -/
def saveBatchDecl : MethodDecl :=
  MethodDecl.mk "Save"
    [Param.mk "files" "const std::vector<std::string>&" none,
     Param.mk "inputMatrix" "arma::Mat<unsigned char>&" none,
     Param.mk "width" "size_t" none,
     Param.mk "height" "size_t" none,
     Param.mk "channels" "size_t" none,
     Param.mk "flipVertical" "bool" (some "true"),
     Param.mk "quality" "size_t" (some "90")]
    "bool"

/-- LoadDir(dirPath, outputMatrix, flipVertical = true), header lines
177-179. -/
def loadDirDecl : MethodDecl :=
  MethodDecl.mk "LoadDir"
    [Param.mk "dirPath" "const std::string&" none,
     Param.mk "outputMatrix" "arma::Mat<unsigned char>&" none,
     Param.mk "flipVertical" "bool" (some "true")]
    "bool"

/-- The complete public surface of class Image, transcribed from the class
declaration in load_image.hpp (lines 64-195): the class declares exactly
these six public member functions besides its constructors and destructor. -/
def imageMethods : List MethodDecl :=
  [loadSingleDecl, loadSingleDimsDecl, loadBatchDecl,
   saveSingleDecl, saveBatchDecl, loadDirDecl]

/-- Whether a declared method has a parameter of the given name. -/
def hasParamNamed (m : MethodDecl) (s : String) : Bool :=
  m.params.any (fun p => p.pname = s)

/-- The declared default of the named parameter (none when the parameter is
absent or has no default). -/
def paramDefault (m : MethodDecl) (s : String) : Option String :=
  match m.params.find? (fun p => p.pname = s) with
  | none => none
  | some p => p.dflt

theorem lexLe_total : ∀ as bs : List Char, lexLe as bs = true ∨ lexLe bs as = true := by
  intro as
  induction as with
  | nil => intro bs; left; rfl
  | cons a as ih =>
      intro bs
      cases bs with
      | nil => right; rfl
      | cons b bs =>
          rcases Nat.lt_trichotomy a.toNat b.toNat with hlt | heq | hgt
          · left; simp [lexLe, hlt]
          · rcases ih bs with h1 | h2
            · left; simp [lexLe, heq, h1]
            · right; simp [lexLe, heq.symm, h2]
          · right; simp [lexLe, hgt]

theorem lexLe_trans : ∀ as bs cs : List Char,
    lexLe as bs = true → lexLe bs cs = true → lexLe as cs = true := by
  intro as
  induction as with
  | nil => intro bs cs _ _; rfl
  | cons a as ih =>
      intro bs cs h1 h2
      cases bs with
      | nil => simp [lexLe] at h1
      | cons b bs =>
          cases cs with
          | nil => simp [lexLe] at h2
          | cons c cs =>
              have h1' : a.toNat < b.toNat ∨ (a.toNat = b.toNat ∧ lexLe as bs = true) := by
                by_cases hab : a.toNat < b.toNat
                · exact Or.inl hab
                · by_cases heq : a.toNat = b.toNat
                  · simp only [lexLe, if_neg hab, if_pos heq] at h1
                    exact Or.inr ⟨heq, h1⟩
                  · simp [lexLe, hab, heq] at h1
              have h2' : b.toNat < c.toNat ∨ (b.toNat = c.toNat ∧ lexLe bs cs = true) := by
                by_cases hbc : b.toNat < c.toNat
                · exact Or.inl hbc
                · by_cases heq : b.toNat = c.toNat
                  · simp only [lexLe, if_neg hbc, if_pos heq] at h2
                    exact Or.inr ⟨heq, h2⟩
                  · simp [lexLe, hbc, heq] at h2
              rcases h1' with hab | ⟨hab, htail1⟩
              · rcases h2' with hbc | ⟨hbc, _⟩
                · have : a.toNat < c.toNat := Nat.lt_trans hab hbc
                  simp [lexLe, this]
                · have : a.toNat < c.toNat := by omega
                  simp [lexLe, this]
              · rcases h2' with hbc | ⟨hbc, htail2⟩
                · have : a.toNat < c.toNat := by omega
                  simp [lexLe, this]
                · have hac : a.toNat = c.toNat := by omega
                  simp [lexLe, hac, ih bs cs htail1 htail2]

theorem lexLe_antisymm : ∀ as bs : List Char,
    lexLe as bs = true → lexLe bs as = true → as = bs := by
  intro as
  induction as with
  | nil =>
      intro bs h1 h2
      cases bs with
      | nil => rfl
      | cons b bs => simp [lexLe] at h2
  | cons a as ih =>
      intro bs h1 h2
      cases bs with
      | nil => simp [lexLe] at h1
      | cons b bs =>
          by_cases hab : a.toNat < b.toNat
          · exfalso
            have hba1 : ¬ b.toNat < a.toNat := by omega
            have hba2 : ¬ b.toNat = a.toNat := by omega
            simp [lexLe, hba1, hba2] at h2
          · by_cases heq : a.toNat = b.toNat
            · have hch : a = b := by
                have h3 := Char.ofNat_toNat a
                rw [heq] at h3
                rw [← h3, Char.ofNat_toNat]
              subst hch
              have h1' : lexLe as bs = true := by
                simpa [lexLe] using h1
              have h2' : lexLe bs as = true := by
                simpa [lexLe] using h2
              rw [ih bs h1' h2']
            · exfalso; simp [lexLe, hab, heq] at h1

instance : IsTotal String strLe := ⟨fun a b => lexLe_total a.data b.data⟩

instance : IsTrans String strLe := ⟨fun a b c => lexLe_trans a.data b.data c.data⟩

instance : IsAntisymm String strLe := ⟨by
  intro a b h1 h2
  have h3 := lexLe_antisymm a.data b.data h1 h2
  cases a; cases b; exact congrArg String.mk h3⟩

/-- Decidable statement that a path decodes to an image of the given
dimensions with a well-formed pixel buffer. -/
def decodesTo (fs : FileSys) (f : String) (w h c : Nat) : Bool :=
  match fs f with
  | none => false
  | some img =>
      decide (img.width = w) && decide (img.height = h) &&
        decide (img.channels = c) && decide (img.pixels.length = w * h * c)

theorem decodesTo_iff (fs : FileSys) (f : String) (w h c : Nat) :
    decodesTo fs f w h c = true ↔
      ∃ img, fs f = some img ∧ img.width = w ∧ img.height = h ∧
        img.channels = c ∧ img.pixels.length = w * h * c := by
  unfold decodesTo
  cases hfs : fs f with
  | none => simp
  | some img => simp [and_assoc]

theorem loadBatchAux_ok_uniform (fs : FileSys) (flip : Bool) (w h c : Nat) :
    ∀ (files : List String) (i : Nat),
      (∀ f ∈ files, decodesTo fs f w h c = true) →
      ∃ cols, loadBatchAux fs flip w h c i files = Except.ok cols ∧
        cols.length = files.length ∧ ∀ col ∈ cols, col.length = w * h * c := by
  intro files
  induction files with
  | nil =>
      intro i _
      exact ⟨[], rfl, rfl, by intro col hcol; cases hcol⟩
  | cons f rest ih =>
      intro i hall
      obtain ⟨img, hfs, hw, hh, hch, hlen⟩ :=
        (decodesTo_iff fs f w h c).mp (hall f (List.mem_cons_self f rest))
      obtain ⟨cols, hrec, hlcols, hcl⟩ :=
        ih (i + 1) (fun g hg => hall g (List.mem_cons_of_mem f hg))
      refine ⟨(if flip then flipVertical (w * c) h img.pixels else img.pixels) :: cols,
        ?_, ?_, ?_⟩
      · simp only [loadBatchAux, hfs]
        rw [if_pos ⟨hw, hh, hch⟩, hrec]
      · simp [hlcols]
      · intro col hcol
        rcases List.mem_cons.mp hcol with h1 | h2
        · subst h1
          cases flip with
          | false => simpa using hlen
          | true =>
              have hlen2 : img.pixels.length = h * (w * c) := by rw [hlen]; ring
              simp only [if_pos]
              rw [flipVertical_length (w * c) h img.pixels hlen2, hlen]
        · exact hcl col h2

theorem loadBatchAux_ok_get (fs : FileSys) (flip : Bool) (w h c : Nat) :
    ∀ (files : List String) (i : Nat) (cols : List (List Nat)),
      loadBatchAux fs flip w h c i files = Except.ok cols →
      cols.length = files.length ∧
      ∀ j (hj1 : j < files.length) (hj2 : j < cols.length),
        ∃ img, fs (files.get ⟨j, hj1⟩) = some img ∧
          img.width = w ∧ img.height = h ∧ img.channels = c ∧
          cols.get ⟨j, hj2⟩ =
            (if flip then flipVertical (w * c) h img.pixels else img.pixels) := by
  intro files
  induction files with
  | nil =>
      intro i cols hok
      simp only [loadBatchAux] at hok
      cases hok
      exact ⟨rfl, by intro j hj1 _; exact absurd hj1 (Nat.not_lt_zero j)⟩
  | cons f rest ih =>
      intro i cols hok
      cases hfs : fs f with
      | none =>
          simp only [loadBatchAux, hfs] at hok
          exact Except.noConfusion hok
      | some img =>
          simp only [loadBatchAux, hfs] at hok
          by_cases hdim : img.width = w ∧ img.height = h ∧ img.channels = c
          · rw [if_pos hdim] at hok
            cases hrec : loadBatchAux fs flip w h c (i + 1) rest with
            | error e => rw [hrec] at hok; exact Except.noConfusion hok
            | ok cols2 =>
                rw [hrec] at hok
                cases hok
                obtain ⟨hlen2, hget2⟩ := ih (i + 1) cols2 hrec
                constructor
                · simp [hlen2]
                · intro j hj1 hj2
                  cases j with
                  | zero =>
                      exact ⟨img, hfs, hdim.1, hdim.2.1, hdim.2.2, rfl⟩
                  | succ n =>
                      have hn1 : n < rest.length := by simpa using hj1
                      have hn2 : n < cols2.length := by simpa using hj2
                      obtain ⟨img2, hfs2, hprops⟩ := hget2 n hn1 hn2
                      exact ⟨img2, hfs2, hprops⟩
          · rw [if_neg hdim] at hok; exact Except.noConfusion hok

theorem loadBatchAux_mismatch (fs : FileSys) (flip : Bool) (w h c : Nat)
    (bad : String) (imgB : DecodedImage) (hbad : fs bad = some imgB)
    (hne : ¬(imgB.width = w ∧ imgB.height = h ∧ imgB.channels = c)) :
    ∀ (mid : List String) (i : Nat) (rest : List String),
      (∀ f ∈ mid, decodesTo fs f w h c = true) →
      loadBatchAux fs flip w h c i (mid ++ bad :: rest) =
        Except.error (LoadError.dimensionMismatch (i + mid.length)) := by
  intro mid
  induction mid with
  | nil =>
      intro i rest _
      simp only [List.nil_append, loadBatchAux, hbad, List.length_nil, Nat.add_zero]
      rw [if_neg hne]
  | cons f mid ih =>
      intro i rest hall
      obtain ⟨img, hfs, hw, hh, hch, _⟩ :=
        (decodesTo_iff fs f w h c).mp (hall f (List.mem_cons_self f mid))
      have hrec := ih (i + 1) rest (fun g hg => hall g (List.mem_cons_of_mem f hg))
      simp only [List.cons_append, loadBatchAux, hfs, List.append_eq]
      rw [if_pos ⟨hw, hh, hch⟩, hrec]
      have harith : i + 1 + mid.length = i + (f :: mid).length := by
        simp; omega
      rw [harith]

theorem loadBatch_ok_elim (fs : FileSys) (files : List String) (flip : Bool)
    (st2 : Image) (cols : List (List Nat))
    (hok : Image.LoadBatch fs files flip = Except.ok (st2, cols)) :
    ∃ f0 rest img0, files = f0 :: rest ∧ fs f0 = some img0 ∧
      0 < img0.width ∧ 0 < img0.height ∧ 0 < img0.channels ∧
      st2 = Image.mk img0.width img0.height img0.channels ∧
      ∃ cols2,
        loadBatchAux fs flip img0.width img0.height img0.channels 1 rest =
          Except.ok cols2 ∧
        cols = (if flip then
            flipVertical (img0.width * img0.channels) img0.height img0.pixels
          else img0.pixels) :: cols2 := by
  cases files with
  | nil => simp only [Image.LoadBatch] at hok; exact Except.noConfusion hok
  | cons f0 rest =>
      cases hfs : fs f0 with
      | none =>
          simp only [Image.LoadBatch, hfs] at hok
          exact Except.noConfusion hok
      | some img0 =>
          simp only [Image.LoadBatch, hfs] at hok
          by_cases hpos : 0 < img0.width ∧ 0 < img0.height ∧ 0 < img0.channels
          · rw [if_pos hpos] at hok
            cases hrec : loadBatchAux fs flip img0.width img0.height img0.channels 1 rest with
            | error e => rw [hrec] at hok; exact Except.noConfusion hok
            | ok cols2 =>
                rw [hrec] at hok
                cases hok
                exact ⟨f0, rest, img0, rfl, hfs, hpos.1, hpos.2.1, hpos.2.2, rfl,
                  cols2, hrec, rfl⟩
          · rw [if_neg hpos] at hok; exact Except.noConfusion hok

theorem loadOne_ok_elim (fs : FileSys) (path : String) (flip : Bool)
    (st2 : Image) (col : List Nat)
    (hok : loadOne fs path flip = Except.ok (st2, col)) :
    ∃ img, fs path = some img ∧ 0 < img.width ∧ 0 < img.height ∧
      0 < img.channels ∧ st2 = Image.mk img.width img.height img.channels ∧
      col = (if flip then flipVertical (img.width * img.channels) img.height img.pixels
        else img.pixels) := by
  cases hfs : fs path with
  | none => simp only [loadOne, hfs] at hok; exact Except.noConfusion hok
  | some img =>
      simp only [loadOne, hfs] at hok
      by_cases hpos : 0 < img.width ∧ 0 < img.height ∧ 0 < img.channels
      · rw [if_pos hpos] at hok
        cases hok
        exact ⟨img, rfl, hpos.1, hpos.2.1, hpos.2.2, rfl, rfl⟩
      · rw [if_neg hpos] at hok; exact Except.noConfusion hok

theorem loadBatch_ok_uniform (fs : FileSys) (files : List String) (flip : Bool)
    (w h c : Nat) (hw : 0 < w) (hh : 0 < h) (hc : 0 < c) (hne : files ≠ [])
    (hall : ∀ f ∈ files, decodesTo fs f w h c = true) :
    ∃ cols, Image.LoadBatch fs files flip = Except.ok (Image.mk w h c, cols) ∧
      cols.length = files.length ∧ ∀ col ∈ cols, col.length = w * h * c := by
  cases files with
  | nil => exact absurd rfl hne
  | cons f0 rest =>
      obtain ⟨img0, hfs0, hw0, hh0, hc0, hlen0⟩ :=
        (decodesTo_iff fs f0 w h c).mp (hall f0 (List.mem_cons_self f0 rest))
      subst hw0; subst hh0; subst hc0
      obtain ⟨cols2, hrec, hlen2, hcl2⟩ :=
        loadBatchAux_ok_uniform fs flip img0.width img0.height img0.channels rest 1
          (fun g hg => hall g (List.mem_cons_of_mem f0 hg))
      refine ⟨(if flip then flipVertical (img0.width * img0.channels) img0.height img0.pixels
          else img0.pixels) :: cols2, ?_, ?_, ?_⟩
      · simp only [Image.LoadBatch, hfs0]
        rw [if_pos ⟨hw, hh, hc⟩, hrec]
      · simp [hlen2]
      · intro col hcol
        rcases List.mem_cons.mp hcol with h1 | h2
        · subst h1
          cases flip with
          | false => simpa using hlen0
          | true =>
              have hl : img0.pixels.length =
                  img0.height * (img0.width * img0.channels) := by
                rw [hlen0]; ring
              rw [if_pos rfl, flipVertical_length _ _ _ hl, hlen0]
        · exact hcl2 col h2

theorem loadBatch_mismatch (fs : FileSys) (flip : Bool) (w h c : Nat)
    (hw : 0 < w) (hh : 0 < h) (hc : 0 < c)
    (f0 : String) (mid : List String) (bad : String) (rest : List String)
    (imgB : DecodedImage)
    (hall : ∀ f ∈ f0 :: mid, decodesTo fs f w h c = true)
    (hbad : fs bad = some imgB)
    (hne : ¬(imgB.width = w ∧ imgB.height = h ∧ imgB.channels = c)) :
    Image.LoadBatch fs (f0 :: (mid ++ bad :: rest)) flip =
      Except.error (LoadError.dimensionMismatch (mid.length + 1)) := by
  obtain ⟨img0, hfs0, hw0, hh0, hc0, _⟩ :=
    (decodesTo_iff fs f0 w h c).mp (hall f0 (List.mem_cons_self f0 mid))
  subst hw0; subst hh0; subst hc0
  have hrec := loadBatchAux_mismatch fs flip img0.width img0.height img0.channels
    bad imgB hbad hne mid 1 rest (fun g hg => hall g (List.mem_cons_of_mem f0 hg))
  rw [Nat.add_comm 1 mid.length] at hrec
  simp only [Image.LoadBatch, hfs0]
  rw [if_pos ⟨hw, hh, hc⟩, hrec]

theorem loadBatch_ok_get (fs : FileSys) (files : List String) (flip : Bool)
    (st2 : Image) (cols : List (List Nat))
    (hok : Image.LoadBatch fs files flip = Except.ok (st2, cols)) :
    cols.length = files.length ∧
    ∀ j (hj1 : j < files.length) (hj2 : j < cols.length),
      ∃ img, fs (files.get ⟨j, hj1⟩) = some img ∧
        img.width = st2.maxWidth ∧ img.height = st2.maxHeight ∧
        img.channels = st2.channels ∧
        cols.get ⟨j, hj2⟩ =
          (if flip then
              flipVertical (st2.maxWidth * st2.channels) st2.maxHeight img.pixels
            else img.pixels) := by
  obtain ⟨f0, rest, img0, hfiles, hfs0, _, _, _, hst, cols2, hrec, hcols⟩ :=
    loadBatch_ok_elim fs files flip st2 cols hok
  subst hfiles; subst hst; subst hcols
  obtain ⟨hlen2, hget2⟩ :=
    loadBatchAux_ok_get fs flip img0.width img0.height img0.channels rest 1 cols2 hrec
  constructor
  · simp [hlen2]
  · intro j hj1 hj2
    cases j with
    | zero => exact ⟨img0, hfs0, rfl, rfl, rfl, rfl⟩
    | succ n =>
        have hn1 : n < rest.length := by simpa using hj1
        have hn2 : n < cols2.length := by simpa using hj2
        obtain ⟨img, hfsi, hwi, hhi, hci, hcoli⟩ := hget2 n hn1 hn2
        exact ⟨img, hfsi, hwi, hhi, hci, hcoli⟩

theorem loadBatch_pos (fs : FileSys) (files : List String) (flip : Bool)
    (st2 : Image) (cols : List (List Nat))
    (hok : Image.LoadBatch fs files flip = Except.ok (st2, cols)) :
    0 < st2.maxWidth ∧ 0 < st2.maxHeight ∧ 0 < st2.channels := by
  obtain ⟨_, _, img0, _, _, hw, hh, hc, hst, _, _, _⟩ :=
    loadBatch_ok_elim fs files flip st2 cols hok
  subst hst
  exact ⟨hw, hh, hc⟩

theorem save_ok_eq (fs : FileSys) (p : String) (col : List Nat) (w h c : Nat)
    (flip : Bool) (q : Nat) (hok : saveOk p col w h c = true) :
    Image.Save fs p col w h c flip q =
      (true, fsUpdate fs p (DecodedImage.mk w h c (encodePixels w h c flip col))) := by
  unfold Image.Save
  rw [if_pos hok]

theorem save_fail_eq (fs : FileSys) (p : String) (col : List Nat) (w h c : Nat)
    (flip : Bool) (q : Nat) (hbad : saveOk p col w h c = false) :
    Image.Save fs p col w h c flip q = (false, fs) := by
  unfold Image.Save
  rw [if_neg (by simp [hbad])]

theorem saveBatchAux_preserves (w h c : Nat) (flip : Bool) (q : Nat) :
    ∀ (pairs : List (String × List Nat)) (fs : FileSys) (i : Nat) (p0 : String),
      (∃ img, fs p0 = some img) →
      ∃ img, (saveBatchAux w h c flip q fs i pairs).2 p0 = some img := by
  intro pairs
  induction pairs with
  | nil => intro fs i p0 hp; exact hp
  | cons pr rest ih =>
      intro fs i p0 hp
      obtain ⟨p1, col1⟩ := pr
      cases hsv : saveOk p1 col1 w h c with
      | true =>
          have heq := save_ok_eq fs p1 col1 w h c flip q hsv
          simp only [saveBatchAux, heq]
          refine ih _ (i + 1) p0 ?_
          obtain ⟨img, himg⟩ := hp
          unfold fsUpdate
          by_cases hpp : p0 = p1
          · exact ⟨_, by rw [if_pos hpp]⟩
          · exact ⟨img, by rw [if_neg hpp]; exact himg⟩
      | false =>
          have heq := save_fail_eq fs p1 col1 w h c flip q hsv
          simp only [saveBatchAux, heq]
          exact hp

theorem saveBatchAux_stops (w h c : Nat) (flip : Bool) (q : Nat)
    (p : String) (col : List Nat) (hbad : saveOk p col w h c = false) :
    ∀ (done : List (String × List Nat)) (fs : FileSys) (i : Nat)
      (rest : List (String × List Nat)),
      (∀ pr ∈ done, saveOk pr.1 pr.2 w h c = true) →
      (saveBatchAux w h c flip q fs i (done ++ (p, col) :: rest)).1 =
        some (i + done.length) ∧
      ∀ pr ∈ done, ∃ img,
        (saveBatchAux w h c flip q fs i (done ++ (p, col) :: rest)).2 pr.1 =
          some img := by
  intro done
  induction done with
  | nil =>
      intro fs i rest _
      have heq := save_fail_eq fs p col w h c flip q hbad
      constructor
      · simp only [List.nil_append, saveBatchAux, heq, List.length_nil, Nat.add_zero]
      · intro pr hpr; cases hpr
  | cons pr0 done ih =>
      intro fs i rest hall
      obtain ⟨p1, col1⟩ := pr0
      have hsv : saveOk p1 col1 w h c = true :=
        hall (p1, col1) (List.mem_cons_self _ _)
      have heq := save_ok_eq fs p1 col1 w h c flip q hsv
      obtain ⟨ih1, ih2⟩ :=
        ih (fsUpdate fs p1 (DecodedImage.mk w h c (encodePixels w h c flip col1)))
          (i + 1) rest (fun g hg => hall g (List.mem_cons_of_mem _ hg))
      constructor
      · simp only [List.cons_append, saveBatchAux, heq, List.append_eq]
        rw [ih1]
        congr 1
        simp only [List.length_cons]
        omega
      · intro pr hpr
        simp only [List.cons_append, saveBatchAux, heq, List.append_eq]
        rcases List.mem_cons.mp hpr with h1 | h2
        · subst h1
          refine saveBatchAux_preserves w h c flip q _ _ (i + 1) (p1, col1).1 ?_
          exact ⟨_, by unfold fsUpdate; rw [if_pos rfl]⟩
        · exact ih2 pr h2

theorem load_fsUpdate (fs : FileSys) (st : Image) (path : String) (flip : Bool)
    (img : DecodedImage) (hw : 0 < img.width) (hh : 0 < img.height)
    (hc : 0 < img.channels) :
    Image.Load st (fsUpdate fs path img) path flip =
      (true, Image.mk img.width img.height img.channels,
        if flip then flipVertical (img.width * img.channels) img.height img.pixels
        else img.pixels) := by
  have hfs : fsUpdate fs path img path = some img := by
    unfold fsUpdate
    rw [if_pos rfl]
  simp only [Image.Load, loadOne, hfs]
  rw [if_pos ⟨hw, hh, hc⟩]

/-- An empty file store: every path is unreadable. -/
def fsEmpty : FileSys := fun _ => none

/-- A small concrete file store used to instantiate the theorems. -/
def fsDemo : FileSys := fun p =>
  if p = "a.png" then some (DecodedImage.mk 1 1 1 [10])
  else if p = "b.png" then some (DecodedImage.mk 1 1 1 [20])
  else if p = "c.jpg" then some (DecodedImage.mk 1 1 1 [30])
  else if p = "big.png" then some (DecodedImage.mk 2 1 1 [1, 2])
  else if p = "zero.png" then some (DecodedImage.mk 0 1 1 [])
  else none

/-- A concrete directory listing used to instantiate the theorems. -/
def entriesDemo : List DirEntry :=
  [DirEntry.mk "b.png" true, DirEntry.mk "a.png" true,
   DirEntry.mk "c.jpg" true, DirEntry.mk "sub" false]

/-- A one-directory filesystem for the LoadDir theorems. -/
def dirsDemo : String → Option (List DirEntry) := fun p =>
  if p = "imgs" then some entriesDemo else none

/-- Claim C1: for a valid image (positive width, height and channels, with
the channel count one the encoder accepts, and a pixel column of exactly
width*height*channels samples) saved under a supported lossless extension,
Save succeeds and Load of the saved file with the same flip flag returns
exactly the original pixel column: Load after Save is the identity on the
pixel column when the flip flags match. -/
theorem save_load_roundtrip (fs : FileSys) (st : Image) (path : String)
    (col : List Nat) (w h c q : Nat) (flip : Bool)
    (hw : 0 < w) (hh : 0 < h) (hc : 0 < c) (hc4 : c ≤ 4)
    (hlen : col.length = w * h * c)
    (hext : extOf path ∈ losslessExts) :
    (Image.Save fs path col w h c flip q).1 = true ∧
    Image.Load st (Image.Save fs path col w h c flip q).2 path flip =
      (true, Image.mk w h c, col) := by
  have hsave : extOf path ∈ saveExts := by
    simp only [losslessExts, List.mem_cons, List.not_mem_nil, or_false] at hext
    rcases hext with h1 | h1 | h1 <;> rw [h1] <;> decide
  have hok : saveOk path col w h c = true := by
    unfold saveOk
    simp only [Bool.and_eq_true, decide_eq_true_eq]
    exact ⟨⟨⟨hsave, hc⟩, hc4⟩, Nat.le_of_eq hlen.symm⟩
  have htake : col.take (w * h * c) = col := by
    rw [← hlen]
    exact List.take_length col
  have heq := save_ok_eq fs path col w h c flip q hok
  have heq1 : (Image.Save fs path col w h c flip q).1 = true := by rw [heq]
  have heq2 : (Image.Save fs path col w h c flip q).2 =
      fsUpdate fs path (DecodedImage.mk w h c (encodePixels w h c flip col)) := by
    rw [heq]
  refine ⟨heq1, ?_⟩
  rw [heq2]
  rw [load_fsUpdate fs st path flip
    (DecodedImage.mk w h c (encodePixels w h c flip col)) hw hh hc]
  cases flip with
  | false => simp [encodePixels, htake]
  | true =>
      have hlen2 : col.length = h * (w * c) := by rw [hlen]; ring
      simp only [encodePixels, if_pos]
      rw [htake, flipVertical_involution (w * c) h col hlen2]

theorem save_load_roundtrip_witness :
    (Image.Save fsEmpty "img.png" [1, 2, 3, 4] 2 2 1 true 90).1 = true ∧
    Image.Load (Image.mk 0 0 0)
        (Image.Save fsEmpty "img.png" [1, 2, 3, 4] 2 2 1 true 90).2
        "img.png" true =
      (true, Image.mk 2 2 1, [1, 2, 3, 4]) :=
  save_load_roundtrip fsEmpty (Image.mk 0 0 0) "img.png" [1, 2, 3, 4] 2 2 1 90 true
    (by decide) (by decide) (by decide) (by decide) (by decide) (by decide)

/-- Claim C2: a non-empty batch whose files all decode to one positive
(width, height, channels) loads successfully into columns of
width*height*channels samples, one column per file; a file that decodes to
different dimensions while all files before it match the reference of the
first file makes the whole call fail with DimensionMismatchError naming
that first mismatching (zero-based) index, and the boolean surface then
returns no matrix at all and leaves the state unchanged. -/
theorem batch_load_uniform_and_failfast (fs : FileSys) (flip : Bool)
    (w h c : Nat) (hw : 0 < w) (hh : 0 < h) (hc : 0 < c) :
    (∀ files, files ≠ [] → (∀ f ∈ files, decodesTo fs f w h c = true) →
      ∃ cols, Image.LoadBatch fs files flip = Except.ok (Image.mk w h c, cols) ∧
        cols.length = files.length ∧ ∀ col ∈ cols, col.length = w * h * c) ∧
    (∀ (f0 : String) (mid : List String) (bad : String) (rest : List String)
        (imgB : DecodedImage),
      (∀ f ∈ f0 :: mid, decodesTo fs f w h c = true) →
      fs bad = some imgB →
      ¬(imgB.width = w ∧ imgB.height = h ∧ imgB.channels = c) →
      Image.LoadBatch fs (f0 :: (mid ++ bad :: rest)) flip =
        Except.error (LoadError.dimensionMismatch (mid.length + 1)) ∧
      ∀ st, Image.loadBatchB st fs (f0 :: (mid ++ bad :: rest)) flip =
        (false, st, [])) := by
  constructor
  · intro files hne hall
    exact loadBatch_ok_uniform fs files flip w h c hw hh hc hne hall
  · intro f0 mid bad rest imgB hall hbad hne
    have herr := loadBatch_mismatch fs flip w h c hw hh hc f0 mid bad rest imgB
      hall hbad hne
    refine ⟨herr, ?_⟩
    intro st
    simp only [Image.loadBatchB, herr]

theorem batch_load_uniform_and_failfast_witness :
    (∃ cols, Image.LoadBatch fsDemo ["a.png", "b.png"] false =
      Except.ok (Image.mk 1 1 1, cols) ∧ cols.length = 2 ∧
      ∀ col ∈ cols, col.length = 1 * 1 * 1) ∧
    Image.LoadBatch fsDemo ["a.png", "b.png", "big.png"] false =
      Except.error (LoadError.dimensionMismatch 2) := by
  constructor
  · have h := (batch_load_uniform_and_failfast fsDemo false 1 1 1
      (by decide) (by decide) (by decide)).1 ["a.png", "b.png"]
      (by decide) (by decide)
    simpa using h
  · have h := ((batch_load_uniform_and_failfast fsDemo false 1 1 1
      (by decide) (by decide) (by decide)).2 "a.png" ["b.png"] "big.png" []
      (DecodedImage.mk 2 1 1 [1, 2]) (by decide) (by decide) (by decide)).1
    simpa using h

/-- Claim C3: vertical flip is an involution on any buffer of
width*height*channels samples split into rows of width*channels samples,
and a single flip exactly reverses the list of rows while each row itself
is untouched. -/
theorem flip_involution_rows (w h c : Nat) (buf : List Nat)
    (hlen : buf.length = w * h * c) :
    flipVertical (w * c) h (flipVertical (w * c) h buf) = buf ∧
    splitRows (w * c) h (flipVertical (w * c) h buf) =
      (splitRows (w * c) h buf).reverse := by
  have hlen2 : buf.length = h * (w * c) := by rw [hlen]; ring
  exact ⟨flipVertical_involution (w * c) h buf hlen2,
    splitRows_flipVertical (w * c) h buf hlen2⟩

theorem flip_involution_rows_witness :
    flipVertical (1 * 2) 3 (flipVertical (1 * 2) 3 [1, 2, 3, 4, 5, 6]) =
      [1, 2, 3, 4, 5, 6] ∧
    splitRows (1 * 2) 3 (flipVertical (1 * 2) 3 [1, 2, 3, 4, 5, 6]) =
      (splitRows (1 * 2) 3 [1, 2, 3, 4, 5, 6]).reverse :=
  flip_involution_rows 1 3 2 [1, 2, 3, 4, 5, 6] (by decide)

/-- Claim C4: LoadDir keeps exactly the regular files of the directory,
sorts their names byte-wise lexicographically (the sorted list is a sorted
permutation of the names and is the unique such list, so repeated calls on
an unchanged directory order columns identically), and delegates to batch
Load on the sorted paths, so that on success column j holds the decoded
(and optionally flipped) pixels of the j-th filename in sorted order. -/
theorem loadDir_sorted_columns (dirs : String → Option (List DirEntry))
    (fs : FileSys) (dirPath : String) (flip : Bool) (entries : List DirEntry)
    (hdir : dirs dirPath = some entries) :
    List.Sorted strLe (sortedRegularNames entries) ∧
    (sortedRegularNames entries).Perm
      ((entries.filter (fun e => e.isRegular)).map DirEntry.name) ∧
    (∀ l, l.Perm ((entries.filter (fun e => e.isRegular)).map DirEntry.name) →
      List.Sorted strLe l → l = sortedRegularNames entries) ∧
    Image.LoadDir dirs fs dirPath flip =
      Image.LoadBatch fs
        ((sortedRegularNames entries).map (fun n => dirPath ++ "/" ++ n)) flip ∧
    (∀ st2 cols, Image.LoadDir dirs fs dirPath flip = Except.ok (st2, cols) →
      cols.length = (sortedRegularNames entries).length ∧
      ∀ j (hj1 : j < (sortedRegularNames entries).length) (hj2 : j < cols.length),
        ∃ img,
          fs (dirPath ++ "/" ++ (sortedRegularNames entries).get ⟨j, hj1⟩) =
            some img ∧
          cols.get ⟨j, hj2⟩ =
            (if flip then
                flipVertical (st2.maxWidth * st2.channels) st2.maxHeight img.pixels
              else img.pixels)) := by
  have hdel : Image.LoadDir dirs fs dirPath flip =
      Image.LoadBatch fs
        ((sortedRegularNames entries).map (fun n => dirPath ++ "/" ++ n)) flip := by
    simp only [Image.LoadDir, hdir]
  refine ⟨?_, ?_, ?_, hdel, ?_⟩
  · exact List.sorted_insertionSort strLe _
  · exact List.perm_insertionSort strLe _
  · intro l hperm hsort
    exact List.eq_of_perm_of_sorted
      (hperm.trans (List.perm_insertionSort strLe _).symm) hsort
      (List.sorted_insertionSort strLe _)
  · intro st2 cols hok
    rw [hdel] at hok
    obtain ⟨hlen, hget⟩ := loadBatch_ok_get fs
      ((sortedRegularNames entries).map (fun n => dirPath ++ "/" ++ n)) flip
      st2 cols hok
    constructor
    · rw [hlen, List.length_map]
    · intro j hj1 hj2
      have hj1m : j < ((sortedRegularNames entries).map
          (fun n => dirPath ++ "/" ++ n)).length := by
        rw [List.length_map]; exact hj1
      obtain ⟨img, hfsi, _, _, _, hcoli⟩ := hget j hj1m hj2
      refine ⟨img, ?_, hcoli⟩
      rw [← hfsi]
      congr 1
      simp [List.get_eq_getElem, List.getElem_map]

theorem loadDir_sorted_columns_witness :
    sortedRegularNames entriesDemo = ["a.png", "b.png", "c.jpg"] ∧
    List.Sorted strLe (sortedRegularNames entriesDemo) ∧
    Image.LoadDir dirsDemo fsDemo "imgs" false =
      Image.LoadBatch fsDemo
        ((sortedRegularNames entriesDemo).map (fun n => "imgs" ++ "/" ++ n))
        false := by
  refine ⟨by decide, ?_, ?_⟩
  · exact (loadDir_sorted_columns dirsDemo fsDemo "imgs" false entriesDemo rfl).1
  · exact (loadDir_sorted_columns dirsDemo fsDemo "imgs" false entriesDemo
      rfl).2.2.2.1

/-- Claim C5: after a successful batch Load the Dimension State equals the
reference dimensions of the first file of the batch, and every file of the
batch decodes to these shared dimensions, so the stored value is the common
width / height / channels (not a maximum, average or last-seen value); the
state is the same triple the call returns as its out-parameters. -/
theorem batch_dimension_state (fs : FileSys) (files : List String) (flip : Bool)
    (st2 : Image) (cols : List (List Nat))
    (hok : Image.LoadBatch fs files flip = Except.ok (st2, cols)) :
    (∃ f0 rest img0, files = f0 :: rest ∧ fs f0 = some img0 ∧
      st2 = Image.mk img0.width img0.height img0.channels) ∧
    ∀ f ∈ files, ∃ img, fs f = some img ∧ img.width = st2.maxWidth ∧
      img.height = st2.maxHeight ∧ img.channels = st2.channels := by
  constructor
  · obtain ⟨f0, rest, img0, hfiles, hfs0, _, _, _, hst, _, _, _⟩ :=
      loadBatch_ok_elim fs files flip st2 cols hok
    exact ⟨f0, rest, img0, hfiles, hfs0, hst⟩
  · intro f hf
    obtain ⟨hlen, hget⟩ := loadBatch_ok_get fs files flip st2 cols hok
    obtain ⟨⟨j, hj⟩, hgetf⟩ := List.mem_iff_get.mp hf
    obtain ⟨img, hfsi, hwi, hhi, hci, _⟩ := hget j hj (by omega)
    rw [← hgetf]
    exact ⟨img, hfsi, hwi, hhi, hci⟩

theorem batch_dimension_state_witness :
    (∃ f0 rest img0, ["a.png", "b.png"] = f0 :: rest ∧ fsDemo f0 = some img0 ∧
      Image.mk 1 1 1 = Image.mk img0.width img0.height img0.channels) ∧
    ∀ f ∈ ["a.png", "b.png"], ∃ img, fsDemo f = some img ∧
      img.width = (Image.mk 1 1 1).maxWidth ∧
      img.height = (Image.mk 1 1 1).maxHeight ∧
      img.channels = (Image.mk 1 1 1).channels :=
  batch_dimension_state fsDemo ["a.png", "b.png"] false (Image.mk 1 1 1)
    [[10], [20]] (by rfl)

/-- Claim C6: every successful Load (single file, batch or directory)
leaves strictly positive width, height and channels in the Dimension
State, and a decode that reports zero in any of the three dimensions makes
the Load fail. -/
theorem load_positive_dims :
    (∀ (st : Image) (fs : FileSys) (path : String) (flip : Bool)
        (st2 : Image) (col : List Nat),
      Image.Load st fs path flip = (true, st2, col) →
      0 < st2.maxWidth ∧ 0 < st2.maxHeight ∧ 0 < st2.channels) ∧
    (∀ (fs : FileSys) (files : List String) (flip : Bool) (st2 : Image)
        (cols : List (List Nat)),
      Image.LoadBatch fs files flip = Except.ok (st2, cols) →
      0 < st2.maxWidth ∧ 0 < st2.maxHeight ∧ 0 < st2.channels) ∧
    (∀ (dirs : String → Option (List DirEntry)) (fs : FileSys)
        (dirPath : String) (flip : Bool) (st2 : Image) (cols : List (List Nat)),
      Image.LoadDir dirs fs dirPath flip = Except.ok (st2, cols) →
      0 < st2.maxWidth ∧ 0 < st2.maxHeight ∧ 0 < st2.channels) ∧
    (∀ (st : Image) (fs : FileSys) (path : String) (flip : Bool)
        (img : DecodedImage),
      fs path = some img →
      (img.width = 0 ∨ img.height = 0 ∨ img.channels = 0) →
      (Image.Load st fs path flip).1 = false) := by
  refine ⟨?_, ?_, ?_, ?_⟩
  · intro st fs path flip st2 col hok
    cases hres : loadOne fs path flip with
    | error e =>
        simp only [Image.Load, hres] at hok
        simp at hok
    | ok pr =>
        obtain ⟨st3, col3⟩ := pr
        simp only [Image.Load, hres] at hok
        simp only [Prod.mk.injEq, true_and] at hok
        obtain ⟨hst, -⟩ := hok
        subst hst
        obtain ⟨img, _, hw, hh, hc, hst3, -⟩ :=
          loadOne_ok_elim fs path flip st3 col3 hres
        subst hst3
        exact ⟨hw, hh, hc⟩
  · intro fs files flip st2 cols hok
    exact loadBatch_pos fs files flip st2 cols hok
  · intro dirs fs dirPath flip st2 cols hok
    cases hdir : dirs dirPath with
    | none =>
        simp only [Image.LoadDir, hdir] at hok
        exact Except.noConfusion hok
    | some entries =>
        simp only [Image.LoadDir, hdir] at hok
        exact loadBatch_pos fs _ flip st2 cols hok
  · intro st fs path flip img hfs hzero
    have hneg : ¬(0 < img.width ∧ 0 < img.height ∧ 0 < img.channels) := by
      rcases hzero with h1 | h1 | h1 <;> omega
    simp only [Image.Load, loadOne, hfs]
    rw [if_neg hneg]

theorem load_positive_dims_witness :
    (0 < (Image.mk 1 1 1).maxWidth ∧ 0 < (Image.mk 1 1 1).maxHeight ∧
      0 < (Image.mk 1 1 1).channels) ∧
    (Image.Load (Image.mk 0 0 0) fsDemo "zero.png" true).1 = false := by
  constructor
  · exact load_positive_dims.1 (Image.mk 0 0 0) fsDemo "a.png" false
      (Image.mk 1 1 1) [10] (by rfl)
  · exact load_positive_dims.2.2.2 (Image.mk 0 0 0) fsDemo "zero.png" true
      (DecodedImage.mk 0 1 1 []) (by rfl) (Or.inl rfl)

/-- Claim C7: when the codec cannot parse the file (the store reports no
decoded image for the path), Load returns the failure signal and leaves
the Dimension State exactly as it was before the call. -/
theorem load_failure_state_unchanged (st : Image) (fs : FileSys)
    (path : String) (flip : Bool) (hfail : fs path = none) :
    Image.Load st fs path flip = (false, st, []) := by
  simp only [Image.Load, loadOne, hfail]

theorem load_failure_state_unchanged_witness :
    Image.Load (Image.mk 7 8 9) fsEmpty "corrupt.png" true =
      (false, Image.mk 7 8 9, []) :=
  load_failure_state_unchanged (Image.mk 7 8 9) fsEmpty "corrupt.png" true rfl

/-- Claim C8 fails on the header: the class declares no Save overload that
omits the explicit width, height and channels parameters, so there is no
Save that could fall back on the Dimension State of a previous Load. -/
theorem no_dimensionless_save :
    ¬ ∃ m, m ∈ imageMethods ∧ m.mname = "Save" ∧
      (hasParamNamed m "width" = false ∨ hasParamNamed m "height" = false ∨
        hasParamNamed m "channels" = false) := by decide

/-- Claim C8 amended: both declared Save overloads take explicit width,
height and channels parameters, none of which has a default value, so no
Save reads the stored Dimension State and a Save-before-Load precondition
failure cannot arise. -/
theorem save_requires_explicit_dims :
    (∀ m ∈ imageMethods, m.mname = "Save" →
      hasParamNamed m "width" = true ∧ hasParamNamed m "height" = true ∧
      hasParamNamed m "channels" = true ∧ paramDefault m "width" = none ∧
      paramDefault m "height" = none ∧ paramDefault m "channels" = none) ∧
    (imageMethods.filter (fun m => decide (m.mname = "Save"))).length = 2 := by
  decide

theorem save_requires_explicit_dims_witness :
    hasParamNamed saveSingleDecl "width" = true ∧
    hasParamNamed saveSingleDecl "height" = true ∧
    hasParamNamed saveSingleDecl "channels" = true ∧
    paramDefault saveSingleDecl "width" = none ∧
    paramDefault saveSingleDecl "height" = none ∧
    paramDefault saveSingleDecl "channels" = none :=
  save_requires_explicit_dims.1 saveSingleDecl (by decide) rfl

/-- Claim C9: every method of the public surface returns bool (failures
surface as that boolean signal; the model is total, so no exception can
escape); a failed batch Load yields no partial matrix and an unchanged
state; a failed batch Save reports the first failing index while the
columns saved before it remain written in the file store. -/
theorem bool_surface_and_batch_effects :
    (∀ m ∈ imageMethods, m.ret = "bool") ∧
    (∀ (st : Image) (fs : FileSys) (files : List String) (flip : Bool),
      (Image.loadBatchB st fs files flip).1 = false →
      Image.loadBatchB st fs files flip = (false, st, [])) ∧
    (∀ (fs : FileSys) (w h c : Nat) (flip : Bool) (q : Nat)
        (done : List (String × List Nat)) (p : String) (col : List Nat)
        (rest : List (String × List Nat)),
      (∀ pr ∈ done, saveOk pr.1 pr.2 w h c = true) →
      saveOk p col w h c = false →
      (Image.SaveBatch fs (done ++ (p, col) :: rest) w h c flip q).1 =
        some done.length ∧
      ∀ pr ∈ done, ∃ img,
        (Image.SaveBatch fs (done ++ (p, col) :: rest) w h c flip q).2 pr.1 =
          some img) := by
  refine ⟨by decide, ?_, ?_⟩
  · intro st fs files flip hfail
    cases hres : Image.LoadBatch fs files flip with
    | error e =>
        unfold Image.loadBatchB
        rw [hres]
    | ok pr =>
        obtain ⟨st2, cols⟩ := pr
        unfold Image.loadBatchB at hfail
        rw [hres] at hfail
        simp at hfail
  · intro fs w h c flip q done p col rest hdone hbad
    obtain ⟨h1, h2⟩ := saveBatchAux_stops w h c flip q p col hbad done fs 0 rest hdone
    constructor
    · unfold Image.SaveBatch
      rw [h1, Nat.zero_add]
    · intro pr hpr
      unfold Image.SaveBatch
      exact h2 pr hpr

theorem bool_surface_and_batch_effects_witness :
    loadSingleDecl.ret = "bool" ∧
    Image.loadBatchB (Image.mk 3 4 5) fsEmpty ["nope.png"] true =
      (false, Image.mk 3 4 5, []) ∧
    (Image.SaveBatch fsEmpty [("a.png", [1]), ("b.txt", [2])] 1 1 1 true 90).1 =
      some 1 ∧
    (∃ img,
      (Image.SaveBatch fsEmpty [("a.png", [1]), ("b.txt", [2])] 1 1 1 true 90).2
        "a.png" = some img) := by
  refine ⟨?_, ?_, ?_, ?_⟩
  · exact bool_surface_and_batch_effects.1 loadSingleDecl (by decide)
  · exact bool_surface_and_batch_effects.2.1 (Image.mk 3 4 5) fsEmpty
      ["nope.png"] true (by rfl)
  · have h := (bool_surface_and_batch_effects.2.2 fsEmpty 1 1 1 true 90
      [("a.png", [1])] "b.txt" [2] [] (by decide) (by decide)).1
    simpa using h
  · have h := (bool_surface_and_batch_effects.2.2 fsEmpty 1 1 1 true 90
      [("a.png", [1])] "b.txt" [2] [] (by decide) (by decide)).2
    obtain ⟨img, himg⟩ := h ("a.png", [1]) (by decide)
    exact ⟨img, by simpa using himg⟩

/-- Claim C10: both declared Save overloads default flipVertical to true
and quality to 90, and a Save with the default flip writes a file whose
stored pixels are the row-reversed first width*height*channels samples of
the column, so flip-by-default applies to the Save family as well. -/
theorem save_defaults_flip_quality :
    (∀ m ∈ imageMethods, m.mname = "Save" →
      paramDefault m "flipVertical" = some "true" ∧
      paramDefault m "quality" = some "90") ∧
    (∀ (fs : FileSys) (path : String) (col : List Nat) (w h c q : Nat)
        (fs2 : FileSys),
      Image.Save fs path col w h c true q = (true, fs2) →
      fs2 path = some (DecodedImage.mk w h c
        (flipVertical (w * c) h (col.take (w * h * c))))) := by
  constructor
  · decide
  · intro fs path col w h c q fs2 hok
    cases hsv : saveOk path col w h c with
    | false =>
        rw [save_fail_eq fs path col w h c true q hsv] at hok
        simp at hok
    | true =>
        rw [save_ok_eq fs path col w h c true q hsv] at hok
        have hfs2 : fs2 =
            fsUpdate fs path (DecodedImage.mk w h c (encodePixels w h c true col)) := by
          have hsnd := congrArg Prod.snd hok
          simpa using hsnd.symm
        rw [hfs2]
        unfold fsUpdate
        rw [if_pos rfl]
        unfold encodePixels
        rw [if_pos rfl]

theorem save_defaults_flip_quality_witness :
    paramDefault saveSingleDecl "flipVertical" = some "true" ∧
    paramDefault saveSingleDecl "quality" = some "90" ∧
    paramDefault saveBatchDecl "flipVertical" = some "true" ∧
    paramDefault saveBatchDecl "quality" = some "90" ∧
    (Image.Save fsEmpty "x.png" [9] 1 1 1 true 90).2 "x.png" =
      some (DecodedImage.mk 1 1 1 (flipVertical (1 * 1) 1 ([9].take (1 * 1 * 1)))) := by
  refine ⟨?_, ?_, ?_, ?_, ?_⟩
  · exact (save_defaults_flip_quality.1 saveSingleDecl (by decide) rfl).1
  · exact (save_defaults_flip_quality.1 saveSingleDecl (by decide) rfl).2
  · exact (save_defaults_flip_quality.1 saveBatchDecl (by decide) rfl).1
  · exact (save_defaults_flip_quality.1 saveBatchDecl (by decide) rfl).2
  · exact save_defaults_flip_quality.2 fsEmpty "x.png" [9] 1 1 1 90
      (Image.Save fsEmpty "x.png" [9] 1 1 1 true 90).2 (by rfl)

end LoadImage
